import Mathlib

/-!
# Verification of the `modeline` library (tokenizer and window scanner)

Shallow embedding of the Go sources `parse.go` (line tokenizer: `findProgram`,
`parseOptions`, `parseSecondForm`, `parseFirstForm`, `parseOption`, `isWordChar`)
and `modeline.go` (window scanner: `Scanner.Scan`, `Scanner.ScanString`).

Modelling conventions:
* A Go string is modelled as a `List Char`.  The Go code indexes raw bytes, but
  every byte class it tests (space, tab, `:`, `=`, ASCII letters/digits/`_`,
  the literals `set `/`se `/`no`) is pure ASCII; in valid UTF-8 no byte of a
  multi-byte character equals an ASCII byte, so byte-level scanning, slicing
  and prefix/suffix tests coincide with character-level ones.
* A Go `map[string]string` is modelled as an association list with unique keys
  (`mapSet` overwrites in place, like a Go map assignment; `mapGet` looks up).
  Go map iteration order is not observable through the library's behaviour.
* Fallible Go functions returning `(T, error)` become `Except ParseError T`;
  the two error values of the library are `ErrNoModeline` and the
  `malformed modeline` error.
-/

namespace ModelineGo

open scoped List

/-- Go strings, modelled as lists of characters. -/
abbrev Str := List Char

/-- The whitespace test the Go code performs everywhere:
`line[i] == ' ' || line[i] == '\t'` (also the cutset of the
`strings.TrimLeft`/`strings.TrimRight` calls, which is `" \t"`). -/
def isWs (c : Char) : Bool :=
  c == ' ' || c == '\t'

/-- `isWordChar` from parse.go:
`(c >= 'a' && c <= 'z') || (c >= 'A' && c <= 'Z') || (c >= '0' && c <= '9') || c == '_'`. -/
def isWordChar (c : Char) : Bool :=
  (decide ('a' ≤ c) && decide (c ≤ 'z')) ||
  (decide ('A' ≤ c) && decide (c ≤ 'Z')) ||
  (decide ('0' ≤ c) && decide (c ≤ '9')) ||
  c == '_'

/-- The body of `findProgram`'s loop at a whitespace position `i`, acting on the
text after that position (`s = line[i+1:]`):
skip further whitespace (`j` loop), read the maximal run of word characters
(the identifier), and succeed iff that run is non-empty and immediately
followed by `':'`.  Returns `(line[start:j], line[j+1:])` on success.
(The Go guard `if j >= len(line) { continue }` is subsumed: when everything
after the whitespace is whitespace, no `':'` head can be found.) -/
def tryMatch (s : Str) : Option (Str × Str) :=
  match (s.dropWhile isWs).dropWhile isWordChar with
  | c :: tail =>
    if c = ':' ∧ (s.dropWhile isWs).takeWhile isWordChar ≠ [] then
      some ((s.dropWhile isWs).takeWhile isWordChar, tail)
    else none
  | [] => none

/-- `findProgram` from parse.go: iterate `i` over all positions of the line;
at each whitespace position attempt a match (`tryMatch`); return the first
success, or fail (`ErrNoModeline`, modelled as `none`) if the loop ends. -/
def findProgram : Str → Option (Str × Str)
  | [] => none
  | c :: rest =>
    if isWs c then
      match tryMatch rest with
      | some pr => some pr
      | none => findProgram rest
    else
      findProgram rest

/-- `strings.TrimRight(l, " \t")`. -/
def trimRightWs (l : Str) : Str :=
  (l.reverse.dropWhile isWs).reverse

/-- The two error values the library produces: `ErrNoModeline` and the
`errors.New("malformed modeline: ...")` value from `parseOptions`. -/
inductive ParseError where
  | noModeline
  | malformedModeline
deriving DecidableEq

/-- Option mapping: Go `map[string]string` as an association list with
unique keys. -/
abbrev OptMap := List (Str × Str)

/-- Go map assignment `m[k] = v`: overwrite the binding of `k` if present,
otherwise add one. -/
def mapSet : OptMap → Str → Str → OptMap
  | [], k, v => [(k, v)]
  | (k', v') :: rest, k, v =>
    if k' = k then (k, v) :: rest else (k', v') :: mapSet rest k v

/-- Go map lookup `m[k]` (with its `ok` flag, as an `Option`). -/
def mapGet : OptMap → Str → Option Str
  | [], _ => none
  | (k', v') :: rest, k => if k' = k then some v' else mapGet rest k

/-- Worker for `fieldsFunc`, accumulating the current (reversed) token. -/
def fieldsFuncAux (p : Char → Bool) : Str → Str → List Str
  | [], acc => if acc = [] then [] else [acc.reverse]
  | c :: rest, acc =>
    if p c then
      if acc = [] then fieldsFuncAux p rest []
      else acc.reverse :: fieldsFuncAux p rest []
    else
      fieldsFuncAux p rest (c :: acc)

/-- `strings.FieldsFunc(text, f)`: split `text` at every character satisfying
`p`, returning the (non-empty) runs between separators. -/
def fieldsFunc (p : Char → Bool) (l : Str) : List Str :=
  fieldsFuncAux p l []

/-- The separator predicate of `parseFirstForm`:
`r == ' ' || r == '\t' || r == ':'`. -/
def isOptSep (c : Char) : Bool :=
  c == ' ' || c == '\t' || c == ':'

/-- `parseOption` from parse.go: `strings.Cut(token, "=")` (split at the first
`'='`); else the `no` prefix with `len(token) > 2` yields boolean negation;
else implicit `true`. -/
def parseOption (token : Str) : Str × Str :=
  if '=' ∈ token then
    (token.takeWhile (fun c => !(c == '=')), (token.dropWhile (fun c => !(c == '='))).tail)
  else if "no".data.isPrefixOf token ∧ 2 < token.length then
    (token.drop 2, "false".data)
  else
    (token, "true".data)

/-- The body of `parseFirstForm`'s token loop: skip an empty token
(`if token == "" { continue }`), parse it, and record it in the map unless
the decoded key is empty (`if key != "" { options[key] = value }`). -/
def addToken (opts : OptMap) (token : Str) : OptMap :=
  if token = [] then opts
  else
    let kv := parseOption token
    if kv.1 = [] then opts else mapSet opts kv.1 kv.2

/-- `parseFirstForm` from parse.go: split on whitespace and colons, then run
the token loop over the resulting tokens. -/
def parseFirstForm (text : Str) : OptMap :=
  (fieldsFunc isOptSep text).foldl addToken []

/-- `parseSecondForm` from parse.go: options end at the first `':'`
(`strings.Index(rest, ":")`); with no closing colon the option map is empty.
(The Go function's error result is always `nil`.) -/
def parseSecondForm (rest : Str) : OptMap :=
  if ':' ∈ rest then parseFirstForm (rest.takeWhile (fun c => !(c == ':')))
  else []

/-- `parseOptions` from parse.go: left-trim, dispatch on the `set `/`se `
keyword (second form), reject a dangling `':'` without the keyword
(malformed), otherwise first form. -/
def parseOptions (rest : Str) : Except ParseError OptMap :=
  if "set ".data.isPrefixOf (rest.dropWhile isWs) then
    .ok (parseSecondForm ((rest.dropWhile isWs).drop 4))
  else if "se ".data.isPrefixOf (rest.dropWhile isWs) then
    .ok (parseSecondForm ((rest.dropWhile isWs).drop 3))
  else if (trimRightWs (rest.dropWhile isWs)).getLast? = some ':' then
    .error .malformedModeline
  else
    .ok (parseFirstForm (rest.dropWhile isWs))

/-- The `Modeline` struct of modeline.go. -/
structure Modeline where
  program : Str
  options : OptMap
  rawLine : Str
deriving DecidableEq

/-- `Scanner.ScanString` from modeline.go (the per-line parser; the spec's
`parseLine`): run `findProgram`, then `parseOptions`, and assemble the result
with `RawLine` set to the original input string. -/
def ScanString (str : Str) : Except ParseError Modeline :=
  match findProgram str with
  | none => .error .noModeline
  | some (program, rest) =>
    match parseOptions rest with
    | .error e => .error e
    | .ok options => .ok ⟨program, options, str⟩

/-- The `Scanner` struct of modeline.go.  `MaxLines` is a Go `int`; the claims
and the data model only concern positive values, so it is modelled as a `Nat`
(for a non-positive `MaxLines` both Go loop guards `lineCount < s.MaxLines`
and `len(bottomBuffer) < s.MaxLines` are immediately false, like `0`; with
bottom scanning and non-empty input Go then panics on
`bottomBuffer[s.MaxLines-1]`, so theorems about `Scan` assume
`1 ≤ maxLines`). -/
structure Scanner where
  scanTop : Bool
  scanBottom : Bool
  maxLines : Nat

/-- A line fed to the tokenizer inside `Scan`:
`if m, err := s.ScanString(line); err == nil { ... }`. -/
def parseMaybe (l : Str) : Option Modeline :=
  (ScanString l).toOption

/-- One step of the bottom circular buffer in `Scan`: append while below
capacity, otherwise (the buffer holds exactly `maxLines` elements)
`copy(bottomBuffer, bottomBuffer[1:]); bottomBuffer[maxLines-1] = line`,
i.e. drop the oldest entry and append. -/
def push {α : Type} (maxLines : Nat) (buf : List α) (line : α) : List α :=
  if buf.length < maxLines then buf ++ [line] else buf.drop 1 ++ [line]

/-- The top-window loop of `Scan`:
`for scanner.Scan() && lineCount < s.MaxLines { ... lineCount++ }`.
Each iteration first calls `scanner.Scan()` — which consumes the next line of
the input — and only then checks `lineCount < maxLines`.  Consequently, when
the loop is terminated by the count check (not by end of input), the line just
consumed is discarded: the following buffer loop calls `scanner.Scan()` again
and never sees it.  The recursion mirrors this exactly: consuming the head
`line` and then failing the count check returns the *tail* as the remaining
input, dropping `line`.  Returns (parsed modelines, remaining input,
final `lineCount`). -/
def topLoop (maxLines : Nat) : List Str → Nat → List Modeline × List Str × Nat
  | [], lineCount => ([], [], lineCount)
  | line :: rest, lineCount =>
    if lineCount < maxLines then
      let r := topLoop maxLines rest (lineCount + 1)
      (match parseMaybe line with
       | some m => m :: r.1
       | none => r.1,
       r.2.1, r.2.2)
    else
      ([], rest, lineCount)

/-- The buffer loop of `Scan`: `for scanner.Scan() { ... lineCount++ }`,
pushing every remaining line through the circular buffer.
Returns (final buffer, final `lineCount`). -/
def bottomLoop (maxLines : Nat) : List Str → List Str → Nat → List Str × Nat
  | [], buf, lineCount => (buf, lineCount)
  | line :: rest, buf, lineCount =>
    bottomLoop maxLines rest (push maxLines buf line) (lineCount + 1)

/-- `Scanner.Scan` from modeline.go, on the list of lines of the input.
Mirrors the Go control flow: early return when neither edge is requested;
the top-only fast path; otherwise top loop (when requested), buffer loop,
and the bottom reconciliation with its overlap arithmetic
(`startIdx = s.MaxLines - (2*s.MaxLines - lineCount)`). -/
def Scanner.scan (s : Scanner) (lines : List Str) : List Modeline :=
  if ¬ s.scanTop ∧ ¬ s.scanBottom then []
  else if s.scanTop ∧ ¬ s.scanBottom then (topLoop s.maxLines lines 0).1
  else
    let t := if s.scanTop then topLoop s.maxLines lines 0 else ([], lines, 0)
    let b := bottomLoop s.maxLines t.2.1 ([] : List Str) t.2.2
    if s.scanBottom then
      if s.scanTop ∧ b.2 ≤ s.maxLines then t.1
      else
        let startIdx :=
          if s.scanTop ∧ b.2 < 2 * s.maxLines then
            s.maxLines - (2 * s.maxLines - b.2)
          else 0
        t.1 ++ (b.1.drop startIdx).filterMap parseMaybe
    else t.1

/-- The lines `Scanner.scan` feeds to the tokenizer, in feed order (closed
form of the loops above): the top window feeds `lines.take maxLines`; the
buffer loop then processes `lines.drop (maxLines + 1)` when the top window ran
(the extra dropped line is the one `scanner.Scan()` consumed when the count
check ended the top loop), or all of `lines` otherwise; the bottom window
feeds the buffer from `startIdx` on.  Polymorphic so it can also be applied
to position-annotated lines. -/
def scanFed {α : Type} (top bottom : Bool) (maxLines : Nat) (lines : List α) : List α :=
  if ¬ top ∧ ¬ bottom then []
  else if top ∧ ¬ bottom then lines.take maxLines
  else
    let topFed := if top then lines.take maxLines else []
    let rest := if top then lines.drop (maxLines + 1) else lines
    let buf := rest.foldl (push maxLines) []
    let lineCount := (if top then min maxLines lines.length else 0) + rest.length
    if bottom then
      if top ∧ lineCount ≤ maxLines then topFed
      else
        let startIdx :=
          if top ∧ lineCount < 2 * maxLines then
            maxLines - (2 * maxLines - lineCount)
          else 0
        topFed ++ buf.drop startIdx
    else topFed

/-!
## Specification-side definitions

These render the wording of the specification (not the code) and are compared
with the embedded code by the theorems below.
-/

/-- Spec wording (§4.1 step 1): the line decomposes as some prefix, then a
non-empty whitespace run, then a non-empty identifier of word characters,
then a colon; `post` is everything after that colon. -/
def IsMatch (line pre ws ident post : Str) : Prop :=
  line = pre ++ ws ++ ident ++ ':' :: post ∧
  ws ≠ [] ∧ (∀ c ∈ ws, isWs c = true) ∧
  ident ≠ [] ∧ (∀ c ∈ ident, isWordChar c = true)

/-- Spec wording: the line contains an occurrence of
[whitespace run][identifier][colon]. -/
def SpecPattern (line : Str) : Prop :=
  ∃ pre ws ident post, IsMatch line pre ws ident post

/-- Spec wording (§4.1 step 3, "last-token-wins"): the value of the *last*
pair in `ps` whose name is `n`, if any. -/
def findLastVal (ps : List (Str × Str)) (n : Str) : Option Str :=
  ps.foldl (fun acc p => if p.1 = n then some p.2 else acc) none

/-! ## List helper lemmas -/

theorem takeWhile_append_of_all {α : Type} {p : α → Bool} {l₁ l₂ : List α}
    (h : ∀ c ∈ l₁, p c = true) :
    (l₁ ++ l₂).takeWhile p = l₁ ++ l₂.takeWhile p := by
  induction l₁ with
  | nil => rfl
  | cons a l ih =>
    rw [List.cons_append, List.takeWhile_cons_of_pos (h a (List.mem_cons_self a l)),
      ih (fun c hc => h c (List.mem_cons_of_mem a hc)), List.cons_append]

theorem dropWhile_append_of_all {α : Type} {p : α → Bool} {l₁ l₂ : List α}
    (h : ∀ c ∈ l₁, p c = true) :
    (l₁ ++ l₂).dropWhile p = l₂.dropWhile p := by
  induction l₁ with
  | nil => rfl
  | cons a l ih =>
    rw [List.cons_append, List.dropWhile_cons_of_pos (h a (List.mem_cons_self a l)),
      ih (fun c hc => h c (List.mem_cons_of_mem a hc))]

/-- If a list splits both as `w ++ t` with every element of `w` satisfying `p`,
and as `a ++ x :: b` with `x` not satisfying `p`, then `x` lies beyond `w`. -/
theorem length_le_of_all_not {α : Type} {p : α → Bool} :
    ∀ {w a t b : List α} {x : α}, w ++ t = a ++ x :: b →
      (∀ y ∈ w, p y = true) → p x = false → w.length ≤ a.length := by
  intro w
  induction w with
  | nil => intros; exact Nat.zero_le _
  | cons y w ih =>
    intro a t b x heq hall hx
    cases a with
    | nil =>
      rw [List.cons_append, List.nil_append] at heq
      injection heq with h1 _
      rw [← h1] at hx
      rw [hall y (List.mem_cons_self y w)] at hx
      exact Bool.noConfusion hx
    | cons z a' =>
      rw [List.cons_append, List.cons_append] at heq
      injection heq with _ h2
      exact Nat.succ_le_succ (ih h2 (fun c hc => hall c (List.mem_cons_of_mem y hc)) hx)

theorem suffix_append_right {α : Type} {l₁ l₂ : List α} (h : l₁ <:+ l₂) (t : List α) :
    l₁ ++ t <:+ l₂ ++ t := by
  obtain ⟨u, rfl⟩ := h
  exact ⟨u, (List.append_assoc u l₁ t).symm⟩

theorem foldl_push_suffix {α : Type} (M : Nat) :
    ∀ (l buf : List α), l.foldl (push M) buf <:+ buf ++ l := by
  intro l
  induction l with
  | nil => intro buf; simp
  | cons a l ih =>
    intro buf
    have h2 : push M buf a <:+ buf ++ [a] := by
      unfold push
      split
      · exact List.suffix_refl _
      · exact suffix_append_right (by simpa using List.drop_suffix 1 buf) [a]
    rw [List.foldl_cons]
    have h3 : (buf ++ [a]) ++ l = buf ++ a :: l := by
      rw [List.append_assoc]; rfl
    exact h3 ▸ (ih (push M buf a)).trans (suffix_append_right h2 l)

theorem push_map {α β : Type} (f : α → β) (M : Nat) (buf : List α) (a : α) :
    (push M buf a).map f = push M (buf.map f) (f a) := by
  unfold push
  by_cases h : buf.length < M
  · rw [if_pos h, if_pos (by rwa [List.length_map]), List.map_append]; rfl
  · rw [if_neg h, if_neg (by rwa [List.length_map]), List.map_append, List.map_drop]; rfl

theorem foldl_push_map {α β : Type} (f : α → β) (M : Nat) :
    ∀ (l buf : List α), (l.foldl (push M) buf).map f = (l.map f).foldl (push M) (buf.map f) := by
  intro l
  induction l with
  | nil => intro buf; rfl
  | cons a l ih =>
    intro buf
    rw [List.foldl_cons, List.map_cons, List.foldl_cons, ih, push_map]

/-! ## Character class lemmas -/

theorem isWordChar_not_ws {c : Char} (h : isWordChar c = true) : isWs c = false := by
  cases hws : isWs c with
  | false => rfl
  | true =>
    exfalso
    simp only [isWs, Bool.or_eq_true, beq_iff_eq] at hws
    rcases hws with rfl | rfl
    · exact absurd h (by decide)
    · exact absurd h (by decide)

theorem colon_not_word : isWordChar ':' = false := by decide

/-! ## `tryMatch` and `findProgram` lemmas -/

theorem tryMatch_some_iff {s p r : Str} :
    tryMatch s = some (p, r) ↔
      p = (s.dropWhile isWs).takeWhile isWordChar ∧ p ≠ [] ∧
      (s.dropWhile isWs).dropWhile isWordChar = ':' :: r := by
  cases hd : (s.dropWhile isWs).dropWhile isWordChar with
  | nil => simp [tryMatch, hd]
  | cons c0 tail =>
    by_cases hc : c0 = ':' ∧ (s.dropWhile isWs).takeWhile isWordChar ≠ []
    · obtain ⟨rfl, hne⟩ := hc
      simp only [tryMatch, hd]
      rw [if_pos ⟨trivial, hne⟩]
      constructor
      · intro h
        injection h with h'
        injection h' with h1 h2
        subst h1
        subst h2
        exact ⟨rfl, hne, rfl⟩
      · rintro ⟨rfl, -, hcons⟩
        injection hcons with h1 h2
        subst h2
        rfl
    · simp only [tryMatch, hd]
      rw [if_neg hc]
      constructor
      · intro h
        exact Option.noConfusion h
      · rintro ⟨rfl, hne, hcons⟩
        injection hcons with h1 h2
        exact absurd ⟨h1, hne⟩ hc

theorem isMatch_of_tryMatch {c : Char} {rest p r : Str} (hc : isWs c = true)
    (h : tryMatch rest = some (p, r)) :
    IsMatch (c :: rest) [] (c :: rest.takeWhile isWs) p r := by
  obtain ⟨hp, hpne, hdrop⟩ := tryMatch_some_iff.mp h
  refine ⟨?_, by simp, ?_, hpne, ?_⟩
  · have hrest : rest = rest.takeWhile isWs ++ (p ++ ':' :: r) := by
      rw [hp, ← hdrop, List.takeWhile_append_dropWhile, List.takeWhile_append_dropWhile]
    simp only [List.nil_append, List.cons_append, List.append_assoc]
    rw [← hrest]
  · intro y hy
    rcases List.mem_cons.mp hy with rfl | hy'
    · exact hc
    · exact List.mem_takeWhile_imp hy'
  · intro y hy
    rw [hp] at hy
    exact List.mem_takeWhile_imp hy

theorem tryMatch_of_isMatch_nil {c : Char} {rest ws id post : Str}
    (h : IsMatch (c :: rest) [] ws id post) :
    tryMatch rest = some (id, post) := by
  obtain ⟨heq, hwsne, hallws, hidne, hallid⟩ := h
  cases ws with
  | nil => exact absurd rfl hwsne
  | cons w ws₀ =>
    obtain ⟨i0, id', rfl⟩ : ∃ i0 id', id = i0 :: id' := by
      cases id with
      | nil => exact absurd rfl hidne
      | cons a b => exact ⟨a, b, rfl⟩
    simp only [List.nil_append, List.cons_append, List.append_assoc] at heq
    injection heq with h1 h2
    subst h2
    have hallws₀ : ∀ y ∈ ws₀, isWs y = true :=
      fun y hy => hallws y (List.mem_cons_of_mem w hy)
    have hallid' : ∀ y ∈ id', isWordChar y = true :=
      fun y hy => hallid y (List.mem_cons_of_mem i0 hy)
    have hi0 : isWordChar i0 = true := hallid i0 (List.mem_cons_self i0 id')
    have hi0ws : isWs i0 = false := isWordChar_not_ws hi0
    have hs1 : ((ws₀ ++ i0 :: (id' ++ ':' :: post)) : Str).dropWhile isWs
        = i0 :: (id' ++ ':' :: post) := by
      rw [dropWhile_append_of_all hallws₀,
        List.dropWhile_cons_of_neg (by simp [hi0ws])]
    refine tryMatch_some_iff.mpr ⟨?_, by simp, ?_⟩
    · rw [hs1, List.takeWhile_cons_of_pos hi0, takeWhile_append_of_all hallid',
        List.takeWhile_cons_of_neg (by decide), List.append_nil]
    · rw [hs1, List.dropWhile_cons_of_pos hi0, dropWhile_append_of_all hallid',
        List.dropWhile_cons_of_neg (by decide)]

theorem isMatch_cons {c : Char} {rest pre ws id post : Str} :
    IsMatch (c :: rest) (c :: pre) ws id post ↔ IsMatch rest pre ws id post := by
  unfold IsMatch
  rw [List.cons_append]
  constructor
  · rintro ⟨heq, h⟩
    injection heq with _ h2
    exact ⟨h2, h⟩
  · rintro ⟨heq, h⟩
    rw [heq]
    exact ⟨rfl, h⟩

theorem isMatch_head_cases {c : Char} {rest pre ws id post : Str}
    (h : IsMatch (c :: rest) pre ws id post) :
    (pre = [] ∧ ∃ ws₀, ws = c :: ws₀) ∨
      ∃ pre₀, pre = c :: pre₀ ∧ IsMatch rest pre₀ ws id post := by
  obtain ⟨heq, hwsne, hallws, hidne, hallid⟩ := h
  cases pre with
  | nil =>
    left
    refine ⟨rfl, ?_⟩
    cases ws with
    | nil => exact absurd rfl hwsne
    | cons w ws₀ =>
      rw [List.nil_append, List.cons_append] at heq
      injection heq with h1 _
      exact ⟨ws₀, by rw [h1]⟩
  | cons z pre₀ =>
    right
    rw [List.cons_append] at heq
    injection heq with h1 h2
    exact ⟨pre₀, by rw [h1], h2, hwsne, hallws, hidne, hallid⟩

theorem findProgram_cons_ws_some {c : Char} {rest : Str} {pr : Str × Str}
    (hc : isWs c = true) (htm : tryMatch rest = some pr) :
    findProgram (c :: rest) = some pr := by
  simp [findProgram, hc, htm]

theorem findProgram_cons_ws_none {c : Char} {rest : Str}
    (hc : isWs c = true) (htm : tryMatch rest = none) :
    findProgram (c :: rest) = findProgram rest := by
  simp [findProgram, hc, htm]

theorem findProgram_cons_not_ws {c : Char} {rest : Str} (hc : isWs c = false) :
    findProgram (c :: rest) = findProgram rest := by
  simp [findProgram, hc]

theorem specPattern_cons_not_ws {c : Char} {rest : Str} (hc : isWs c = false) :
    SpecPattern (c :: rest) ↔ SpecPattern rest := by
  constructor
  · rintro ⟨pre, ws, id, post, hm⟩
    rcases isMatch_head_cases hm with ⟨rfl, ws₀, rfl⟩ | ⟨pre₀, rfl, hm₀⟩
    · have := hm.2.2.1 c (List.mem_cons_self c ws₀)
      rw [hc] at this
      exact Bool.noConfusion this
    · exact ⟨pre₀, ws, id, post, hm₀⟩
  · rintro ⟨pre, ws, id, post, hm⟩
    exact ⟨c :: pre, ws, id, post, isMatch_cons.mpr hm⟩

theorem specPattern_cons_ws_none {c : Char} {rest : Str}
    (htm : tryMatch rest = none) :
    SpecPattern (c :: rest) ↔ SpecPattern rest := by
  constructor
  · rintro ⟨pre, ws, id, post, hm⟩
    rcases isMatch_head_cases hm with ⟨rfl, -⟩ | ⟨pre₀, rfl, hm₀⟩
    · exact absurd (tryMatch_of_isMatch_nil hm) (by simp [htm])
    · exact ⟨pre₀, ws, id, post, hm₀⟩
  · rintro ⟨pre, ws, id, post, hm⟩
    exact ⟨c :: pre, ws, id, post, isMatch_cons.mpr hm⟩

theorem findProgram_none_iff : ∀ (line : Str), findProgram line = none ↔ ¬ SpecPattern line := by
  intro line
  induction line with
  | nil =>
    constructor
    · rintro - ⟨pre, ws, id, post, heq, hwsne, -, -, -⟩
      exact absurd heq.symm (by simp)
    · intro _
      rfl
  | cons c rest ih =>
    cases hc : isWs c with
    | false =>
      rw [findProgram_cons_not_ws hc, specPattern_cons_not_ws hc]
      exact ih
    | true =>
      cases htm : tryMatch rest with
      | some pr =>
        rw [findProgram_cons_ws_some hc htm]
        constructor
        · intro h
          exact Option.noConfusion h
        · intro hns
          exfalso
          obtain ⟨p, r⟩ := pr
          exact hns ⟨[], c :: rest.takeWhile isWs, p, r, isMatch_of_tryMatch hc htm⟩
      | none =>
        rw [findProgram_cons_ws_none hc htm, specPattern_cons_ws_none htm]
        exact ih

theorem findProgram_some_spec : ∀ {line p r : Str}, findProgram line = some (p, r) →
    ∃ pre ws, IsMatch line pre ws p r ∧
      ∀ pre' ws' id' post', IsMatch line pre' ws' id' post' →
        pre.length + ws.length ≤ pre'.length + ws'.length := by
  intro line
  induction line with
  | nil =>
    intro p r h
    simp [findProgram] at h
  | cons c rest ih =>
    intro p r h
    cases hc : isWs c with
    | false =>
      rw [findProgram_cons_not_ws hc] at h
      obtain ⟨pre, ws, hm, hmin⟩ := ih h
      refine ⟨c :: pre, ws, isMatch_cons.mpr hm, ?_⟩
      intro pre' ws' id' post' hm'
      rcases isMatch_head_cases hm' with ⟨rfl, ws₀, rfl⟩ | ⟨pre₀, rfl, hm₀⟩
      · have := hm'.2.2.1 c (List.mem_cons_self c ws₀)
        rw [hc] at this
        exact Bool.noConfusion this
      · have := hmin pre₀ ws' id' post' hm₀
        simp only [List.length_cons]
        omega
    | true =>
      cases htm : tryMatch rest with
      | some pr₀ =>
        rw [findProgram_cons_ws_some hc htm] at h
        obtain ⟨p₀, r₀⟩ := pr₀
        injection h with h'
        injection h' with h1 h2
        subst h1
        subst h2
        have hm := isMatch_of_tryMatch hc htm
        refine ⟨[], c :: rest.takeWhile isWs, hm, ?_⟩
        intro pre' ws' id' post' hm'
        obtain ⟨heq', -, -, hidne', hallid'⟩ := hm'
        obtain ⟨x, id₀, rfl⟩ : ∃ x id₀, id' = x :: id₀ := by
          cases id' with
          | nil => exact absurd rfl hidne'
          | cons a b => exact ⟨a, b, rfl⟩
        have hx : isWs x = false := isWordChar_not_ws (hallid' x (List.mem_cons_self x id₀))
        have hsplit : (c :: rest.takeWhile isWs) ++ rest.dropWhile isWs
            = (pre' ++ ws') ++ (x :: (id₀ ++ ':' :: post')) := by
          rw [List.cons_append, List.takeWhile_append_dropWhile, heq']
          simp [List.append_assoc]
        have hb := length_le_of_all_not hsplit hm.2.2.1 hx
        rw [List.length_append] at hb
        simp only [List.length_nil]
        omega
      | none =>
        rw [findProgram_cons_ws_none hc htm] at h
        obtain ⟨pre, ws, hm, hmin⟩ := ih h
        refine ⟨c :: pre, ws, isMatch_cons.mpr hm, ?_⟩
        intro pre' ws' id' post' hm'
        rcases isMatch_head_cases hm' with ⟨rfl, -⟩ | ⟨pre₀, rfl, hm₀⟩
        · exact absurd (tryMatch_of_isMatch_nil hm') (by simp [htm])
        · have := hmin pre₀ ws' id' post' hm₀
          simp only [List.length_cons]
          omega

/-! ## `parseOptions` and `ScanString` lemmas -/

theorem parseOptions_ne_noModeline (rest : Str) :
    parseOptions rest ≠ .error .noModeline := by
  unfold parseOptions
  split_ifs <;> simp

theorem parseOptions_malformed_iff (rest : Str) :
    parseOptions rest = .error .malformedModeline ↔
      (¬ "set ".data.isPrefixOf (rest.dropWhile isWs) = true ∧
       ¬ "se ".data.isPrefixOf (rest.dropWhile isWs) = true ∧
       (trimRightWs (rest.dropWhile isWs)).getLast? = some ':') := by
  unfold parseOptions
  split_ifs <;> simp [*]

theorem ScanString_eq_none {line : Str} (hfp : findProgram line = none) :
    ScanString line = .error .noModeline := by
  unfold ScanString
  rw [hfp]

theorem ScanString_eq_some {line p rest : Str} (hfp : findProgram line = some (p, rest)) :
    ScanString line =
      match parseOptions rest with
      | .error e => .error e
      | .ok options => .ok ⟨p, options, line⟩ := by
  unfold ScanString
  rw [hfp]

theorem ScanString_ok_elim {line : Str} {m : Modeline} (h : ScanString line = .ok m) :
    ∃ rest, findProgram line = some (m.program, rest) ∧
      parseOptions rest = .ok m.options ∧ m.rawLine = line := by
  cases hfp : findProgram line with
  | none =>
    rw [ScanString_eq_none hfp] at h
    exact Except.noConfusion h
  | some pr =>
    obtain ⟨p, rest⟩ := pr
    rw [ScanString_eq_some hfp] at h
    cases hpo : parseOptions rest with
    | error e =>
      rw [hpo] at h
      exact Except.noConfusion h
    | ok o =>
      rw [hpo] at h
      injection h with h'
      subst h'
      exact ⟨rest, rfl, hpo, rfl⟩

theorem ScanString_noModeline_iff {line : Str} :
    ScanString line = .error .noModeline ↔ findProgram line = none := by
  cases hfp : findProgram line with
  | none => simp [ScanString_eq_none hfp]
  | some pr =>
    obtain ⟨p, rest⟩ := pr
    rw [ScanString_eq_some hfp]
    constructor
    · intro h
      exfalso
      cases hpo : parseOptions rest with
      | error e =>
        rw [hpo] at h
        injection h with h'
        exact parseOptions_ne_noModeline rest (h' ▸ hpo)
      | ok o =>
        rw [hpo] at h
        exact Except.noConfusion h
    · intro h
      exact Option.noConfusion h

theorem ScanString_malformed_iff {line p rest : Str} (hfp : findProgram line = some (p, rest)) :
    ScanString line = .error .malformedModeline ↔
      parseOptions rest = .error .malformedModeline := by
  rw [ScanString_eq_some hfp]
  cases hpo : parseOptions rest with
  | error e =>
    show (Except.error e : Except ParseError Modeline) = .error .malformedModeline ↔
      (Except.error e : Except ParseError OptMap) = .error .malformedModeline
    constructor
    · intro h
      injection h with h'
      rw [h']
    · intro h
      injection h with h'
      rw [h']
  | ok o => simp

/-! ## Option map lemmas -/

theorem mapGet_mapSet (m : OptMap) (k v n : Str) :
    mapGet (mapSet m k v) n = if k = n then some v else mapGet m n := by
  induction m with
  | nil => rfl
  | cons kv rest ih =>
    obtain ⟨k', v'⟩ := kv
    by_cases hk : k' = k
    · subst hk
      by_cases hn : k' = n
      · subst hn
        simp [mapSet, mapGet]
      · simp [mapSet, mapGet, hn]
    · by_cases hn : k = n
      · subst hn
        simp [mapSet, mapGet, hk, ih]
      · by_cases hn' : k' = n
        · subst hn'
          simp [mapSet, mapGet, hk, hn, Ne.symm hk]
        · simp [mapSet, mapGet, hk, hn, hn', ih]

theorem mapGet_addToken {m : OptMap} {tok n : Str} (hn : n ≠ []) :
    mapGet (addToken m tok) n =
      if (parseOption tok).1 = n then some (parseOption tok).2 else mapGet m n := by
  unfold addToken
  by_cases ht : tok = []
  · subst ht
    rw [if_pos rfl]
    have hkey : (parseOption ([] : Str)).1 = [] := rfl
    rw [if_neg (by rw [hkey]; exact fun h => hn h.symm)]
  · rw [if_neg ht]
    by_cases hkey : (parseOption tok).1 = []
    · rw [if_pos hkey, if_neg (by rw [hkey]; exact fun h => hn h.symm)]
    · rw [if_neg hkey, mapGet_mapSet]

theorem mapGet_foldl_addToken {n : Str} (hn : n ≠ []) :
    ∀ (toks : List Str) (m : OptMap),
      mapGet (toks.foldl addToken m) n =
        (toks.map parseOption).foldl
          (fun acc p => if p.1 = n then some p.2 else acc) (mapGet m n) := by
  intro toks
  induction toks with
  | nil => intro m; rfl
  | cons tok toks ih =>
    intro m
    rw [List.foldl_cons, List.map_cons, List.foldl_cons, ih, mapGet_addToken hn]

theorem mapGet_parseFirstForm {text n : Str} (hn : n ≠ []) :
    mapGet (parseFirstForm text) n
      = findLastVal ((fieldsFunc isOptSep text).map parseOption) n := by
  unfold parseFirstForm findLastVal
  rw [mapGet_foldl_addToken hn]
  rfl

theorem mem_mapSet {m : OptMap} {k v : Str} {kv : Str × Str} :
    kv ∈ mapSet m k v → kv = (k, v) ∨ kv ∈ m := by
  induction m with
  | nil =>
    intro h
    simp [mapSet] at h
    left
    exact h
  | cons kv' rest ih =>
    obtain ⟨k', v'⟩ := kv'
    intro h
    unfold mapSet at h
    by_cases hk : k' = k
    · rw [if_pos hk] at h
      rcases List.mem_cons.mp h with h1 | h1
      · left; exact h1
      · right; exact List.mem_cons_of_mem _ h1
    · rw [if_neg hk] at h
      rcases List.mem_cons.mp h with h1 | h1
      · right
        rw [h1]
        exact List.mem_cons_self _ _
      · rcases ih h1 with h2 | h2
        · left; exact h2
        · right; exact List.mem_cons_of_mem _ h2

theorem addToken_keys {m : OptMap} {tok : Str} (hm : ∀ kv ∈ m, kv.1 ≠ []) :
    ∀ kv ∈ addToken m tok, kv.1 ≠ [] := by
  intro kv hkv
  unfold addToken at hkv
  by_cases ht : tok = []
  · rw [if_pos ht] at hkv
    exact hm kv hkv
  · rw [if_neg ht] at hkv
    by_cases hkey : (parseOption tok).1 = []
    · rw [if_pos hkey] at hkv
      exact hm kv hkv
    · rw [if_neg hkey] at hkv
      rcases mem_mapSet hkv with h | h
      · rw [h]
        exact hkey
      · exact hm kv h

theorem foldl_addToken_keys :
    ∀ (toks : List Str) (m : OptMap), (∀ kv ∈ m, kv.1 ≠ []) →
      ∀ kv ∈ toks.foldl addToken m, kv.1 ≠ [] := by
  intro toks
  induction toks with
  | nil => intro m hm; exact hm
  | cons tok toks ih =>
    intro m hm
    rw [List.foldl_cons]
    exact ih _ (addToken_keys hm)

theorem parseFirstForm_keys (text : Str) : ∀ kv ∈ parseFirstForm text, kv.1 ≠ [] :=
  foldl_addToken_keys _ [] (by simp)

theorem parseSecondForm_keys (rest : Str) : ∀ kv ∈ parseSecondForm rest, kv.1 ≠ [] := by
  unfold parseSecondForm
  split_ifs with h
  · exact parseFirstForm_keys _
  · simp

theorem parseOptions_ok_keys {rest : Str} {o : OptMap} (h : parseOptions rest = .ok o) :
    ∀ kv ∈ o, kv.1 ≠ [] := by
  unfold parseOptions at h
  split_ifs at h with h1 h2 h3
  · injection h with h'
    subst h'
    exact parseSecondForm_keys _
  · injection h with h'
    subst h'
    exact parseSecondForm_keys _
  · injection h with h'
    subst h'
    exact parseFirstForm_keys _

theorem mapGet_nil_of_keys {m : OptMap} (hm : ∀ kv ∈ m, kv.1 ≠ []) :
    mapGet m [] = none := by
  induction m with
  | nil => rfl
  | cons kv rest ih =>
    obtain ⟨k', v'⟩ := kv
    unfold mapGet
    rw [if_neg (fun h => hm (k', v') (List.mem_cons_self _ _) h)]
    exact ih (fun kv hkv => hm kv (List.mem_cons_of_mem _ hkv))

/-! ## `parseOption` decoding lemmas -/

theorem parseOption_cut {a b : Str} (ha : '=' ∉ a) :
    parseOption (a ++ '=' :: b) = (a, b) := by
  unfold parseOption
  rw [if_pos (List.mem_append.mpr (Or.inr (List.mem_cons_self _ _)))]
  have hall : ∀ c ∈ a, (fun c => !(c == '=')) c = true := by
    intro c hc
    have : c ≠ '=' := fun h => ha (h ▸ hc)
    simp [this]
  rw [takeWhile_append_of_all hall, dropWhile_append_of_all hall,
    List.takeWhile_cons_of_neg (by simp), List.dropWhile_cons_of_neg (by simp),
    List.append_nil]
  rfl

theorem parseOption_no {tok : Str} (h1 : '=' ∉ tok)
    (h2 : "no".data.isPrefixOf tok = true) (h3 : 2 < tok.length) :
    parseOption tok = (tok.drop 2, "false".data) := by
  unfold parseOption
  rw [if_neg h1, if_pos ⟨h2, h3⟩]

theorem parseOption_plain {tok : Str} (h1 : '=' ∉ tok)
    (h2 : ¬ ("no".data.isPrefixOf tok = true ∧ 2 < tok.length)) :
    parseOption tok = (tok, "true".data) := by
  unfold parseOption
  rw [if_neg h1, if_neg h2]

/-! ## Scanner loop lemmas -/

theorem topLoop_eq (M : Nat) :
    ∀ (lines : List Str) (c : Nat), c ≤ M →
      topLoop M lines c =
        ((lines.take (M - c)).filterMap parseMaybe, lines.drop (M - c + 1),
          c + min (M - c) lines.length) := by
  intro lines
  induction lines with
  | nil =>
    intro c hc
    simp [topLoop]
  | cons l ls ih =>
    intro c hc
    by_cases h : c < M
    · have h1 : M - c = (M - (c + 1)) + 1 := by omega
      unfold topLoop
      rw [if_pos h, ih (c + 1) h, h1]
      cases hpm : parseMaybe l with
      | some m =>
        simp only [List.take_succ_cons, List.filterMap_cons_some hpm, List.drop_succ_cons,
          List.length_cons, Prod.mk.injEq]
        exact ⟨trivial, trivial, by omega⟩
      | none =>
        simp only [List.take_succ_cons, List.filterMap_cons_none hpm, List.drop_succ_cons,
          List.length_cons, Prod.mk.injEq]
        exact ⟨trivial, trivial, by omega⟩
    · have hcm : c = M := by omega
      subst hcm
      unfold topLoop
      rw [if_neg h]
      simp

theorem bottomLoop_eq (M : Nat) :
    ∀ (lines buf : List Str) (c : Nat),
      bottomLoop M lines buf c = (lines.foldl (push M) buf, c + lines.length) := by
  intro lines
  induction lines with
  | nil =>
    intro buf c
    simp [bottomLoop]
  | cons l ls ih =>
    intro buf c
    unfold bottomLoop
    rw [ih, List.foldl_cons]
    simp only [List.length_cons, Prod.mk.injEq]
    exact ⟨trivial, by omega⟩

theorem scan_eq_scanFed (s : Scanner) (lines : List Str) :
    s.scan lines = (scanFed s.scanTop s.scanBottom s.maxLines lines).filterMap parseMaybe := by
  obtain ⟨t, b, M⟩ := s
  cases t <;> cases b
  · simp [Scanner.scan, scanFed]
  · simp only [Scanner.scan, scanFed]
    rw [bottomLoop_eq]
    simp [List.filterMap_append]
  · simp only [Scanner.scan, scanFed]
    rw [topLoop_eq M lines 0 (Nat.zero_le M)]
    simp
  · simp only [Scanner.scan, scanFed]
    rw [topLoop_eq M lines 0 (Nat.zero_le M), bottomLoop_eq]
    simp only [Nat.sub_zero, Nat.zero_add]
    split_ifs <;> simp [List.filterMap_append]

theorem scanFed_sublist {α : Type} (t b : Bool) (M : Nat) (lines : List α) :
    scanFed t b M lines <+ lines := by
  have hbuf : ∀ (rest : List α) (k : Nat), ((rest.foldl (push M) []).drop k) <:+ rest := by
    intro rest k
    have h1 : rest.foldl (push M) [] <:+ rest := by
      simpa using foldl_push_suffix M rest []
    exact (List.drop_suffix k _).trans h1
  cases t <;> cases b
  · simp [scanFed]
  · simp only [scanFed]
    simp only [Bool.false_eq_true, not_false_eq_true, true_and, if_true, if_false]
    have := (hbuf lines 0).sublist
    simpa using this
  · simp [scanFed]
    exact List.take_sublist M lines
  · simp only [scanFed]
    have hmain : ∀ k, lines.take M ++ ((lines.drop (M + 1)).foldl (push M) []).drop k <+ lines := by
      intro k
      have h2 : ((lines.drop (M + 1)).foldl (push M) []).drop k <+ lines.drop M :=
        (hbuf (lines.drop (M + 1)) k).sublist.trans
          (List.drop_sublist_drop_left lines (by omega))
      have h3 := List.Sublist.append (List.Sublist.refl (lines.take M)) h2
      rwa [List.take_append_drop] at h3
    split_ifs <;> first
      | exact List.take_sublist M lines
      | exact hmain _
      | simp [scanFed]

theorem scanFed_map {α β : Type} (f : α → β) (t b : Bool) (M : Nat) (lines : List α) :
    scanFed t b M (lines.map f) = (scanFed t b M lines).map f := by
  cases t <;> cases b
  · simp [scanFed]
  · simp [scanFed, foldl_push_map, apply_ite]
  · simp [scanFed]
  · by_cases hA : min M lines.length + (lines.length - (M + 1)) ≤ M
    · simp [scanFed, List.length_drop, hA, apply_ite]
    · by_cases hB : min M lines.length + (lines.length - (M + 1)) < 2 * M
      · simp [scanFed, List.length_drop, hA, hB, foldl_push_map, apply_ite]
      · simp [scanFed, List.length_drop, hA, hB, foldl_push_map, apply_ite]

/-! ## Claim theorems -/

/-- C1: the claim states that a source of exactly `2*maxLines` lines with
distinct valid modelines on the first and last lines, scanned with
`scanTop = scanBottom = true`, returns exactly two results in source order.
The code violates this for every `maxLines ≥ 1`.  This theorem evaluates the
scanner at the failing input `maxLines = 2` with the 4-line source below
(modelines on lines 1 and 4): only the line-1 modeline is returned, although
line 4 is a valid modeline (second conjunct).  Cause: the top loop condition
`scanner.Scan() && lineCount < s.MaxLines` calls `Scan()` before the count
check, so line 3 is consumed and discarded and `lineCount` ends at 3 instead
of 4; the `lineCount < 2*maxLines` overlap branch then computes
`startIdx = 1` and skips the single buffered line (line 4). -/
theorem scan_overlap_two_maxlines_bug :
    Scanner.scan ⟨true, true, 2⟩
        ["# vim: sw=3".data, "line 2".data, "line 3".data, "# envctl: provider=gsm".data]
      = [⟨"vim".data, [("sw".data, "3".data)], "# vim: sw=3".data⟩] ∧
    parseMaybe "# envctl: provider=gsm".data
      = some ⟨"envctl".data, [("provider".data, "gsm".data)], "# envctl: provider=gsm".data⟩ :=
  ⟨rfl, rfl⟩

/-- C2: `Scan` never parses the same input line twice.  For every scanner with
`maxLines ≥ 1` (the data model requires a positive `maxLines`; for
`maxLines ≤ 0` the Go code panics on the buffer write) and every source:
(1) the scan result is exactly the tokenizer filtered over `scanFed`, the list
of lines fed to the tokenizer; (2) `scanFed` is a sublist (order-preserving
subsequence) of the source, so each fed line comes from a distinct source
position; (3,4) instrumenting the lines with their positions, the fed lines
carry pairwise-distinct position indices.  The concrete part: a 3-line source
with both windows and `maxLines = 5` and a modeline on line 1 yields exactly
one result. -/
theorem scan_parses_each_line_once :
    (∀ (s : Scanner) (lines : List Str), 1 ≤ s.maxLines →
      s.scan lines = (scanFed s.scanTop s.scanBottom s.maxLines lines).filterMap parseMaybe ∧
      scanFed s.scanTop s.scanBottom s.maxLines lines <+ lines ∧
      (scanFed s.scanTop s.scanBottom s.maxLines lines.enum).map Prod.snd
        = scanFed s.scanTop s.scanBottom s.maxLines lines ∧
      ((scanFed s.scanTop s.scanBottom s.maxLines lines.enum).map Prod.fst).Nodup) ∧
    Scanner.scan ⟨true, true, 5⟩ ["# vim: sw=3".data, "line 2".data, "line 3".data]
      = [⟨"vim".data, [("sw".data, "3".data)], "# vim: sw=3".data⟩] := by
  constructor
  · intro s lines _
    refine ⟨scan_eq_scanFed s lines, scanFed_sublist _ _ _ lines, ?_, ?_⟩
    · rw [← scanFed_map Prod.snd, List.enum_map_snd]
    · have hsub := (scanFed_sublist s.scanTop s.scanBottom s.maxLines lines.enum).map Prod.fst
      rw [List.enum_map_fst] at hsub
      exact hsub.nodup (List.nodup_range _)
  · rfl

/-- C2 witness: the universal part of `scan_parses_each_line_once` applied at
a concrete scanner and source, discharging the `1 ≤ maxLines` hypothesis. -/
theorem scan_parses_each_line_once_witness :
    (1 : Nat) ≤ 5 ∧
    (Scanner.scan ⟨true, true, 5⟩ [" vi:x".data]
        = (scanFed true true 5 [" vi:x".data]).filterMap parseMaybe ∧
      scanFed true true 5 [" vi:x".data] <+ [" vi:x".data] ∧
      (scanFed true true 5 ([" vi:x".data].enum)).map Prod.snd
        = scanFed true true 5 [" vi:x".data] ∧
      ((scanFed true true 5 ([" vi:x".data].enum)).map Prod.fst).Nodup) :=
  ⟨by decide, scan_parses_each_line_once.1 ⟨true, true, 5⟩ [" vi:x".data] (by decide)⟩

/-- C3: a 7-line source whose only modeline is on line 7, scanned with
`scanBottom = true` (bottom only) and `maxLines = 5`, returns exactly the
line-7 modeline; the same source with `scanTop = true, scanBottom = false`
returns no results. -/
theorem scan_window_seven_lines :
    Scanner.scan ⟨false, true, 5⟩
        ["line 1".data, "line 2".data, "line 3".data, "line 4".data, "line 5".data,
          "line 6".data, "# vim: sw=3".data]
      = [⟨"vim".data, [("sw".data, "3".data)], "# vim: sw=3".data⟩] ∧
    Scanner.scan ⟨true, false, 5⟩
        ["line 1".data, "line 2".data, "line 3".data, "line 4".data, "line 5".data,
          "line 6".data, "# vim: sw=3".data]
      = [] :=
  ⟨rfl, rfl⟩

/-- C4 counterexample: the claim as stated says every non-empty token is
recorded in the options mapping.  The non-empty token `=v` decodes (by the
code's own rule: text before the first `'='` is the name) to the empty name
with value `v`, yet `parseFirstForm "=v"` records nothing: the mapping is
empty and no key (in particular not the empty name) maps to `v`. -/
theorem option_token_empty_name_counterexample :
    fieldsFunc isOptSep "=v".data = ["=v".data] ∧
    "=v".data ≠ ([] : Str) ∧
    parseOption "=v".data = (([] : Str), "v".data) ∧
    parseFirstForm "=v".data = [] ∧
    mapGet (parseFirstForm "=v".data) [] ≠ some "v".data :=
  ⟨rfl, by decide, rfl, rfl, by decide⟩

/-- C4 (amended): option-token decoding as claimed — split at the first `=`;
else `no` + at least one more character gives boolean negation; else implicit
`true` — and every non-empty token *whose decoded name is non-empty* is
recorded in the mapping with last-token-wins semantics (`findLastVal` is the
value of the last token decoding to the given name); tokens decoding to an
empty name are discarded, so the empty name is never bound. -/
theorem option_decoding_amended :
    (∀ a b : Str, '=' ∉ a → parseOption (a ++ '=' :: b) = (a, b)) ∧
    (∀ tok : Str, '=' ∉ tok → "no".data.isPrefixOf tok = true → 2 < tok.length →
      parseOption tok = (tok.drop 2, "false".data)) ∧
    (∀ tok : Str, '=' ∉ tok → ¬ ("no".data.isPrefixOf tok = true ∧ 2 < tok.length) →
      parseOption tok = (tok, "true".data)) ∧
    (∀ (text n : Str), n ≠ [] →
      mapGet (parseFirstForm text) n
        = findLastVal ((fieldsFunc isOptSep text).map parseOption) n) ∧
    (∀ text : Str, mapGet (parseFirstForm text) [] = none) :=
  ⟨fun _ _ ha => parseOption_cut ha,
   fun _ h1 h2 h3 => parseOption_no h1 h2 h3,
   fun _ h1 h2 => parseOption_plain h1 h2,
   fun _ _ hn => mapGet_parseFirstForm hn,
   fun text => mapGet_nil_of_keys (parseFirstForm_keys text)⟩

/-- C4 witness: the amended decoding rules applied at concrete tokens, and the
last-token-wins lookup at a concrete option region with a repeated name. -/
theorem option_decoding_amended_witness :
    parseOption ("sw".data ++ '=' :: "3".data) = ("sw".data, "3".data) ∧
    parseOption "noai".data = ("noai".data.drop 2, "false".data) ∧
    parseOption "cursorline".data = ("cursorline".data, "true".data) ∧
    mapGet (parseFirstForm "a=1 a=2".data) "a".data
      = findLastVal ((fieldsFunc isOptSep "a=1 a=2".data).map parseOption) "a".data :=
  ⟨option_decoding_amended.1 "sw".data "3".data (by decide),
   option_decoding_amended.2.1 "noai".data (by decide) (by decide) (by decide),
   option_decoding_amended.2.2.1 "cursorline".data (by decide) (by decide),
   option_decoding_amended.2.2.2.1 "a=1 a=2".data "a".data (by decide)⟩

/-- C5: `ScanString` (the spec's `parseLine`) fails with `NoModeline` iff the
line contains no occurrence of [whitespace run][identifier][colon]
(`SpecPattern`); when `findProgram` matches, the returned `(program, rest)`
is an actual decomposition of the line (`IsMatch`: `program` is a non-empty
identifier of word characters preceded by whitespace and followed by the
colon, `rest` is everything after that colon) and it is the leftmost such
match (its identifier starts no later than any other match's identifier);
and every successful parse's `program` comes from `findProgram`. -/
theorem parseLine_noModeline_iff_leftmost :
    (∀ line : Str, ScanString line = .error .noModeline ↔ ¬ SpecPattern line) ∧
    (∀ line p r : Str, findProgram line = some (p, r) →
      ∃ pre ws, IsMatch line pre ws p r ∧
        ∀ pre' ws' id' post', IsMatch line pre' ws' id' post' →
          pre.length + ws.length ≤ pre'.length + ws'.length) ∧
    (∀ (line : Str) (m : Modeline), ScanString line = .ok m →
      ∃ rest, findProgram line = some (m.program, rest)) := by
  refine ⟨?_, ?_, ?_⟩
  · intro line
    exact ScanString_noModeline_iff.trans (findProgram_none_iff line)
  · intro line p r h
    exact findProgram_some_spec h
  · intro line m h
    obtain ⟨rest, hfp, -, -⟩ := ScanString_ok_elim h
    exact ⟨rest, hfp⟩

/-- C5 witness: the leftmost-match part applied at the concrete line
`" vi:x"`, discharging the `findProgram` hypothesis by evaluation. -/
theorem parseLine_noModeline_iff_leftmost_witness :
    ∃ pre ws, IsMatch " vi:x".data pre ws "vi".data "x".data ∧
      ∀ pre' ws' id' post', IsMatch " vi:x".data pre' ws' id' post' →
        pre.length + ws.length ≤ pre'.length + ws'.length :=
  parseLine_noModeline_iff_leftmost.2.1 " vi:x".data "vi".data "x".data (by rfl)

/-- C6: after a program match, `ScanString` fails with `MalformedModeline`
exactly when the remainder, left-trimmed, starts with neither `set ` nor
`se ` and, right-trimmed, ends with a colon (first two conjuncts, at the
`parseOptions` and `ScanString` levels); every parse outcome is `NoModeline`,
`MalformedModeline`, or success (third conjunct); the unterminated second
form `"# robot: se beep=boop"` succeeds with empty options; and
`"# robot: beep=boop:"` fails with `MalformedModeline`. -/
theorem parseLine_error_classification :
    (∀ rest : Str, parseOptions rest = .error .malformedModeline ↔
      (¬ "set ".data.isPrefixOf (rest.dropWhile isWs) = true ∧
       ¬ "se ".data.isPrefixOf (rest.dropWhile isWs) = true ∧
       (trimRightWs (rest.dropWhile isWs)).getLast? = some ':')) ∧
    (∀ line p rest : Str, findProgram line = some (p, rest) →
      (ScanString line = .error .malformedModeline ↔
        (¬ "set ".data.isPrefixOf (rest.dropWhile isWs) = true ∧
         ¬ "se ".data.isPrefixOf (rest.dropWhile isWs) = true ∧
         (trimRightWs (rest.dropWhile isWs)).getLast? = some ':'))) ∧
    (∀ line : Str, ScanString line = .error .noModeline ∨
      ScanString line = .error .malformedModeline ∨ ∃ m, ScanString line = .ok m) ∧
    ScanString "# robot: se beep=boop".data
      = .ok ⟨"robot".data, [], "# robot: se beep=boop".data⟩ ∧
    ScanString "# robot: beep=boop:".data = .error .malformedModeline := by
  refine ⟨parseOptions_malformed_iff, ?_, ?_, rfl, rfl⟩
  · intro line p rest hfp
    exact (ScanString_malformed_iff hfp).trans (parseOptions_malformed_iff rest)
  · intro line
    cases hres : ScanString line with
    | ok m => exact Or.inr (Or.inr ⟨m, rfl⟩)
    | error e =>
      cases e with
      | noModeline => exact Or.inl rfl
      | malformedModeline => exact Or.inr (Or.inl rfl)

/-- C6 witness: the `ScanString`-level malformedness characterization applied
at the concrete line `"# robot: beep=boop:"`, discharging the program-match
hypothesis by evaluation. -/
theorem parseLine_error_classification_witness :
    ScanString "# robot: beep=boop:".data = .error .malformedModeline ↔
      (¬ "set ".data.isPrefixOf ((" beep=boop:".data : Str).dropWhile isWs) = true ∧
       ¬ "se ".data.isPrefixOf ((" beep=boop:".data : Str).dropWhile isWs) = true ∧
       (trimRightWs ((" beep=boop:".data : Str).dropWhile isWs)).getLast? = some ':') :=
  parseLine_error_classification.2.1 "# robot: beep=boop:".data "robot".data
    " beep=boop:".data (by rfl)

/-- C7: the second-form example: `set ` is stripped, the option region is
bounded by the next colon, text after it is ignored, and the options are
`sw = 3`, `foldmethod = marker` with program `vim`. -/
theorem parseLine_second_form_example :
    ScanString "/* vim:set sw=3 foldmethod=marker: */ random text".data
      = .ok ⟨"vim".data,
          [("sw".data, "3".data), ("foldmethod".data, "marker".data)],
          "/* vim:set sw=3 foldmethod=marker: */ random text".data⟩ :=
  rfl

/-- C8: every successful parse records the exact input line as `rawLine`, and
re-parsing `rawLine` returns an equal result. -/
theorem parseLine_rawline_roundtrip :
    ∀ (line : Str) (m : Modeline), ScanString line = .ok m →
      m.rawLine = line ∧ ScanString m.rawLine = .ok m := by
  intro line m h
  obtain ⟨rest, -, -, hraw⟩ := ScanString_ok_elim h
  exact ⟨hraw, by rw [hraw]; exact h⟩

/-- C8 witness: the round-trip applied at the concrete line `"# vim: sw=3"`,
discharging the success hypothesis by evaluation. -/
theorem parseLine_rawline_roundtrip_witness :
    (⟨"vim".data, [("sw".data, "3".data)], "# vim: sw=3".data⟩ : Modeline).rawLine
        = "# vim: sw=3".data ∧
    ScanString (⟨"vim".data, [("sw".data, "3".data)], "# vim: sw=3".data⟩ : Modeline).rawLine
      = .ok ⟨"vim".data, [("sw".data, "3".data)], "# vim: sw=3".data⟩ :=
  parseLine_rawline_roundtrip "# vim: sw=3".data
    ⟨"vim".data, [("sw".data, "3".data)], "# vim: sw=3".data⟩ (by rfl)

/-- C9: every successful parse has a non-empty `program`. -/
theorem parseLine_program_nonempty :
    ∀ (line : Str) (m : Modeline), ScanString line = .ok m → m.program ≠ [] := by
  intro line m h
  obtain ⟨rest, hfp, -, -⟩ := ScanString_ok_elim h
  obtain ⟨pre, ws, hm, -⟩ := findProgram_some_spec hfp
  exact hm.2.2.2.1

/-- C9 witness: applied at a concrete successful parse. -/
theorem parseLine_program_nonempty_witness :
    (⟨"vim".data, [("sw".data, "3".data)], "# vim: sw=3".data⟩ : Modeline).program ≠ [] :=
  parseLine_program_nonempty "# vim: sw=3".data
    ⟨"vim".data, [("sw".data, "3".data)], "# vim: sw=3".data⟩ (by rfl)

/-- C10: every key in the options mapping of every successful parse is
non-empty, and a token whose decoded name is empty (such as `=value`) is
silently discarded, producing no map entry. -/
theorem options_keys_nonempty :
    (∀ (line : Str) (m : Modeline), ScanString line = .ok m →
      ∀ kv ∈ m.options, kv.1 ≠ []) ∧
    parseFirstForm "=value".data = [] := by
  constructor
  · intro line m h
    obtain ⟨rest, -, hpo, -⟩ := ScanString_ok_elim h
    exact parseOptions_ok_keys hpo
  · rfl

/-- C10 witness: applied at a concrete successful parse and a concrete
option entry. -/
theorem options_keys_nonempty_witness :
    (("sw".data, "3".data) : Str × Str).1 ≠ [] :=
  options_keys_nonempty.1 "# vim: sw=3".data
    ⟨"vim".data, [("sw".data, "3".data)], "# vim: sw=3".data⟩ (by rfl)
    ("sw".data, "3".data) (by simp)

end ModelineGo
